import Mathlib

/-! Shallow embedding of the Inside Secure SafeXcel descriptor-ring engine
(`drivers/crypto/inside-secure/safexcel_ring.c`, `safexcel_hash.c`,
`safexcel.h`).  Pointers into the DMA arena are modelled as integers (byte
addresses); machine integers are modelled as `Nat`/`Int`, with explicit
reduction modulo 2^32 where C unsigned arithmetic wraps.  Fallible C
functions returning `ERR_PTR` are modelled with `Option`. -/

namespace Safexcel

/-! Hardware constants, from `safexcel.h`. -/

/-- EIP197_MAX_BATCH_SZ (safexcel.h line 51). -/
def EIP197_MAX_BATCH_SZ : Int := 65535

/-- EIP197_RD_OWN_WORD (safexcel.h line 551): ownership words enabled. -/
def EIP197_RD_OWN_WORD : Nat := 1

/-- EIP197_OWN_POLL_COUNT (safexcel.h line 552). -/
def EIP197_OWN_POLL_COUNT : Nat := 10

/-- EIP197_OWNERSHIP_MAGIC (safexcel.h line 553). -/
def EIP197_OWNERSHIP_MAGIC : Nat := 0xAAAAAAAA

/-- EIP197_HIA_RDR_THRESH_PKT_MODE is BIT(23) (safexcel.h line 273). -/
def EIP197_HIA_RDR_THRESH_PKT_MODE : Nat := 2 ^ 23

/-- EIP197_HIA_RDR_THRESH_PROC_PKT(n) is (n) (safexcel.h line 272). -/
def EIP197_HIA_RDR_THRESH_PROC_PKT (n : Nat) : Nat := n

/-- bitwise complement on u32 values: for x < 2^32, ~x = 2^32 - 1 - x. -/
def u32_not (x : Nat) : Nat := 0xFFFFFFFF - x

/-! The descriptor ring (struct safexcel_desc_ring, safexcel.h lines
678-686).  `base`, `base_end`, `write` and `read` are byte addresses into
the DMA arena; the entry stride (`cd_offset` / `rd_offset`) and the entry
count (`ring_entries`) come from `struct safexcel_config`. -/

structure DescRing where
  base : Int
  base_end : Int
  write : Int
  read : Int
deriving DecidableEq

/-- address of slot `i` in an arena based at `b` with stride `off`. -/
def slotPtr (b : Int) (off : Nat) (i : Nat) : Int := b + (off : Int) * i

/-- a ring whose write cursor sits at slot `wi` and read cursor at slot
`ri`, in an arena of `n` slots of stride `off` based at `b`; `base_end`
is `base + off * (n - 1)` as set up by `safexcel_init_ring_descriptors`
(safexcel_ring.c lines 25-27 and 38-40). -/
def ringOf (b : Int) (off n wi ri : Nat) : DescRing :=
  { base := b
    base_end := slotPtr b off (n - 1)
    write := slotPtr b off wi
    read := slotPtr b off ri }

/-- initial cursor state from `safexcel_init_ring_descriptors`
(safexcel_ring.c lines 13-44): write = read = base. -/
def ring_init (b : Int) (off n : Nat) : DescRing := ringOf b off n 0 0

/-- common body of `safexcel_cdr_next_wptr` (safexcel_ring.c lines 52-69)
and `safexcel_rdr_next_wptr` (lines 71-88), which differ only in the
stride used (`cd_offset` vs `rd_offset`).  Returns `none` for
`ERR_PTR(-ENOMEM)` ("ring full"), else the pre-advance write cursor, and
the updated ring. -/
def desc_next_wptr (off : Int) (r : DescRing) : Option Int × DescRing :=
  if r.write = r.read - off ∨ (r.read = r.base ∧ r.write = r.base_end) then
    (none, r)
  else if r.write = r.base_end then
    (some r.write, { r with write := r.base })
  else
    (some r.write, { r with write := r.write + off })

/-- safexcel_cdr_next_wptr (safexcel_ring.c lines 52-69), with the
`cd_offset` stride passed explicitly. -/
def safexcel_cdr_next_wptr (cd_offset : Int) (r : DescRing) :
    Option Int × DescRing :=
  desc_next_wptr cd_offset r

/-- safexcel_rdr_next_wptr (safexcel_ring.c lines 71-88), with the
`rd_offset` stride passed explicitly. -/
def safexcel_rdr_next_wptr (rd_offset : Int) (r : DescRing) :
    Option Int × DescRing :=
  desc_next_wptr rd_offset r

/-- safexcel_cdr_next_rptr (safexcel_ring.c lines 90-102): returns the
current read cursor and unconditionally advances it, wrapping at the
end. -/
def safexcel_cdr_next_rptr (off : Int) (r : DescRing) : Int × DescRing :=
  if r.read = r.base_end then
    (r.read, { r with read := r.base })
  else
    (r.read, { r with read := r.read + off })

/-- common body of `safexcel_cdr_rollback_wptr` (safexcel_ring.c lines
190-200) and `safexcel_rdr_rollback_wptr` (lines 202-212): moves the
write cursor back one stride, wrapping below base; no-op when
write == read. -/
def desc_rollback_wptr (off : Int) (r : DescRing) : DescRing :=
  if r.write = r.read then r
  else if r.write = r.base then { r with write := r.base_end }
  else { r with write := r.write - off }

/-- safexcel_cdr_rollback_wptr (safexcel_ring.c lines 190-200). -/
def safexcel_cdr_rollback_wptr (cd_offset : Int) (r : DescRing) : DescRing :=
  desc_rollback_wptr cd_offset r

/-- safexcel_rdr_rollback_wptr (safexcel_ring.c lines 202-212). -/
def safexcel_rdr_rollback_wptr (rd_offset : Int) (r : DescRing) : DescRing :=
  desc_rollback_wptr rd_offset r

/-! Claim C4: safexcel_rdesc_check_errors (safexcel_hash.c lines
3118-3139).  The 15-bit `error_code` field of the result-data block is
passed as a `Nat`; the returned `Int` is the C return value, using the
Linux errno values EIO = 5, EBADMSG = 74, EINVAL = 22. -/

def safexcel_rdesc_check_errors (error_code : Nat) : Int :=
  if error_code = 0 then 0
  else if error_code &&& 0x407f ≠ 0 then -5
  else if error_code = 2 ^ 9 then -74
  else -22

/-! Claim C6: safexcel_try_push_requests (safexcel_hash.c lines
3006-3020).  `requests` is the ring's in-flight counter (a C int).  The
function programs `EIP197_HIA_RDR_THRESH_PKT_MODE |
EIP197_HIA_RDR_THRESH_PROC_PKT(coal)` with
`coal = min_t(int, requests, EIP197_MAX_BATCH_SZ)`; we return the
register value written together with `coal`. -/

def safexcel_try_push_requests (requests : Int) : Nat × Int :=
  let coal := min requests EIP197_MAX_BATCH_SZ
  (EIP197_HIA_RDR_THRESH_PKT_MODE |||
     EIP197_HIA_RDR_THRESH_PROC_PKT coal.toNat,
   coal)

/-! Claim C9: safexcel_select_ring (safexcel_ring.c lines 46-50), i.e.
`atomic_inc_return(&priv->ring_used) % priv->config.rings`.  The atomic
counter is a 32-bit integer whose bit pattern wraps modulo 2^32; since
`config.rings` is a `u32`, the C `%` is performed in unsigned 32-bit
arithmetic, so the counter operand is its value modulo 2^32.  Takes the
current counter value (as a 32-bit bit pattern, a `Nat` below 2^32) and
the ring count; returns the selected index and the new counter value. -/

def UINT32_MOD : Nat := 4294967296

def safexcel_select_ring (ring_used rings : Nat) : Nat × Nat :=
  let c := (ring_used + 1) % UINT32_MOD
  (c % rings, c)

/-- results of `k` consecutive safexcel_select_ring calls starting from
counter value `ring_used`. -/
def selectSeq (ring_used rings : Nat) : Nat → List Nat
  | 0 => []
  | k + 1 =>
    (safexcel_select_ring ring_used rings).1 ::
      selectSeq (safexcel_select_ring ring_used rings).2 rings k

/-! Claim C10: the zero-length early-completion path of
safexcel_ahash_final (safexcel_hash.c lines 643-676).  `ctx->alg` values
are from safexcel.h lines 440-445.  The kernel-wide constants
`md5_zero_message_hash` .. `sha512_zero_message_hash` (declared outside
this repository) are modelled as opaque tokens; the driver only copies
them wholesale. -/

def CONTEXT_CONTROL_CRYPTO_ALG_MD5 : Nat := 0 <<< 23
def CONTEXT_CONTROL_CRYPTO_ALG_SHA1 : Nat := 2 <<< 23
def CONTEXT_CONTROL_CRYPTO_ALG_SHA224 : Nat := 4 <<< 23
def CONTEXT_CONTROL_CRYPTO_ALG_SHA256 : Nat := 3 <<< 23
def CONTEXT_CONTROL_CRYPTO_ALG_SHA384 : Nat := 6 <<< 23
def CONTEXT_CONTROL_CRYPTO_ALG_SHA512 : Nat := 5 <<< 23

/-- tokens standing for the kernel's precomputed empty-message digests. -/
inductive ZeroMsgDigest where
  | md5
  | sha1
  | sha224
  | sha256
  | sha384
  | sha512
deriving DecidableEq

def md5_zero_message_hash : ZeroMsgDigest := .md5
def sha1_zero_message_hash : ZeroMsgDigest := .sha1
def sha224_zero_message_hash : ZeroMsgDigest := .sha224
def sha256_zero_message_hash : ZeroMsgDigest := .sha256
def sha384_zero_message_hash : ZeroMsgDigest := .sha384
def sha512_zero_message_hash : ZeroMsgDigest := .sha512

/-- outcome of safexcel_ahash_final: `complete d` means the function
returns 0 immediately, having copied digest `d` (if any) into
`areq->result`, without calling safexcel_ahash_enqueue; `enqueue` means
it falls through to `safexcel_ahash_enqueue(areq)`. -/
inductive FinalAction where
  | complete (digest : Option ZeroMsgDigest)
  | enqueue
deriving DecidableEq

/-- safexcel_ahash_final (safexcel_hash.c lines 643-676), abstracted to
the data deciding its control flow: `len0`/`len1` are the 2x64-bit
accumulated length `req->len`, `nbytes` is `areq->nbytes`, `alg` is
`ctx->alg`. -/
def safexcel_ahash_final (len0 len1 nbytes alg : Nat) : FinalAction :=
  if len0 = 0 ∧ len1 = 0 ∧ nbytes = 0 then
    .complete
      (if alg = CONTEXT_CONTROL_CRYPTO_ALG_MD5 then
        some md5_zero_message_hash
      else if alg = CONTEXT_CONTROL_CRYPTO_ALG_SHA1 then
        some sha1_zero_message_hash
      else if alg = CONTEXT_CONTROL_CRYPTO_ALG_SHA224 then
        some sha224_zero_message_hash
      else if alg = CONTEXT_CONTROL_CRYPTO_ALG_SHA256 then
        some sha256_zero_message_hash
      else if alg = CONTEXT_CONTROL_CRYPTO_ALG_SHA384 then
        some sha384_zero_message_hash
      else if alg = CONTEXT_CONTROL_CRYPTO_ALG_SHA512 then
        some sha512_zero_message_hash
      else none)
  else .enqueue

/-! Claim C2: safexcel_rdr_next_rptr (safexcel_ring.c lines 104-138).
The ownership word of the slot at `ptr` lives at `ptr + own_offset`; the
device may flip it to EIP197_OWNERSHIP_MAGIC concurrently, so the value
seen by the i-th poll iteration is given by an observation sequence
`obs : Nat → Nat`.  The single store `*own = ~EIP197_OWNERSHIP_MAGIC`
performed on success is reified in the second component of the result
(`none` = no store).  The third component is the value of `*read` on
return; the caller (safexcel_handle_req_result, safexcel_hash.c lines
158-176) copies it back into `priv->ring[ring].rdr.read` only on the
success path. -/

/-- the poll loop `cnt = EIP197_OWN_POLL_COUNT; while ((--cnt) && (*own !=
EIP197_OWNERSHIP_MAGIC)) cpu_relax();` -- returns the final value of
`cnt`; `i` counts the loads of `*own` performed so far. -/
def ownPoll (obs : Nat → Nat) : Nat → Nat → Nat
  | 0, _ => 0
  | cnt + 1, i =>
    if cnt = 0 then 0
    else if obs i = EIP197_OWNERSHIP_MAGIC then cnt
    else ownPoll obs cnt (i + 1)

def safexcel_rdr_next_rptr (rd_offset : Int) (r : DescRing) (read : Int)
    (obs : Nat → Nat) : Option Int × Option Nat × Int :=
  let ptr := read
  if EIP197_RD_OWN_WORD ≠ 0 then
    if ownPoll obs EIP197_OWN_POLL_COUNT 0 = 0 then
      (none, none, read)
    else
      (some ptr, some (u32_not EIP197_OWNERSHIP_MAGIC),
       if ptr = r.base_end then r.base else read + rd_offset)
  else
    (some ptr, none,
     if ptr = r.base_end then r.base else read + rd_offset)

/-! Claim C8: safexcel_rdr_scan_next (safexcel_ring.c lines 141-163).
The walk reads, for each visited slot address `p`, the ownership word at
`p + own_offset` (modelled by `own : Int → Nat` applied to the slot
address, i.e. `own p` is the value of the word at `p + own_offset`) and
the `last_seg` bit of the result descriptor at `p` (`lastSeg : Int →
Bool`).  The pointer advance `rdesc = (void *)own + 4; own += rd_offset`
equals `rdesc += rd_offset` because `config.own_offset = config.rd_offset
- 4` (safexcel_hash.c line 3585).  The C loop has no bound; it is run
here with explicit fuel, and the claim is settled with fuel =
ring_entries under the hypothesis that some slot's ownership word is not
the magic value (which makes the fuel irrelevant).  The function never
writes `ring->read`, so the read cursor is left unmoved by
construction. -/

def scan_go (off base base_end : Int) (own : Int → Nat)
    (lastSeg : Int → Bool) : Nat → Int → Bool
  | 0, _ => false
  | fuel + 1, p =>
    if own p = EIP197_OWNERSHIP_MAGIC then
      if lastSeg p then true
      else
        scan_go off base base_end own lastSeg fuel
          (if p = base_end then base else p + off)
    else false

def safexcel_rdr_scan_next (rd_offset : Int) (r : DescRing)
    (own : Int → Nat) (lastSeg : Int → Bool) (fuel : Nat) : Bool :=
  scan_go rd_offset r.base r.base_end own lastSeg fuel r.read

/-! Claims C1 and C7: traces of ring-cursor operations under the
single-writer/single-reader discipline.  The ghost counter `c` tracks the
number of reserved-but-unread slots: a successful `next_write_slot`
reserves one, `next_read_slot` consumes one, `rollback_write` un-reserves
one (unless the ring is empty, when it is a no-op).  The discipline
requires the consumer to call `next_read_slot` only when a reserved slot
exists (c > 0). -/

inductive RingOp where
  | write
  | read
  | rollback
deriving DecidableEq

/-- one ring operation applied to cursor state plus ghost count. -/
def ringStep (off : Int) : DescRing × Nat → RingOp → DescRing × Nat
  | (r, c), .write =>
    match desc_next_wptr off r with
    | (some _, r') => (r', c + 1)
    | (none, r') => (r', c)
  | (r, c), .read => ((safexcel_cdr_next_rptr off r).2, c - 1)
  | (r, c), .rollback =>
    (desc_rollback_wptr off r, if r.write = r.read then c else c - 1)

/-- a trace is valid when every `read` happens with at least one
reserved-but-unread slot. -/
def validFrom (off : Int) : DescRing × Nat → List RingOp → Bool
  | _, [] => true
  | (r, c), op :: rest =>
    (match op with
     | RingOp.read => decide (0 < c)
     | _ => true) &&
      validFrom off (ringStep off (r, c) op) rest

def runOps (off : Int) (s : DescRing × Nat) (l : List RingOp) :
    DescRing × Nat :=
  l.foldl (ringStep off) s

/-- cursor distance in slots: the number of slots from the read cursor up
to (excluding) the write cursor, in an `n`-slot ring. -/
def ringDist (n wi ri : Nat) : Nat := (wi + n - ri) % n

/-- iterated reservation: `N` consecutive successful next_write_slot
calls (`none` if any of them reports ring full). -/
def reserveN (off : Int) : Nat → DescRing → Option DescRing
  | 0, r => some r
  | k + 1, r =>
    match desc_next_wptr off r with
    | (some _, r') => reserveN off k r'
    | (none, _) => none

/-- iterated rollback: `rollbackN off k r` applies desc_rollback_wptr `k`
times. -/
def rollbackN (off : Int) : Nat → DescRing → DescRing
  | 0, r => r
  | k + 1, r => desc_rollback_wptr off (rollbackN off k r)

/-! Claim C3: in-flight accounting across safexcel_dequeue
(safexcel_hash.c lines 3087-3116) and safexcel_handle_result_descriptor
(lines 3216-3340), as an interleaved transition system on one Ring
Context.  `requests` is `priv->ring[ring].requests` (a C int); the ghost
fields count admissions, results published to the device via
RDR_PREP_COUNT, and results fully processed.  `pending` is the batch
counted into `requests` (line 3099) whose RDR prep count has not yet been
written to the device (line 3102); the completion path can only observe
(and hence decrement for) results that were published. -/

structure FlowState where
  requests : Int
  admitted : Nat
  published : Nat
  completed : Nat
  pending : Nat
deriving DecidableEq

/-- reachable states of the in-flight accounting protocol.  `incr`
models safexcel_hash.c line 3099 (`priv->ring[ring].requests += nreq`),
`publish` models line 3102 (the RDR_PREP_COUNT write, which happens after
the increment in program order under the same lock), and `complete`
models lines 3256-3276 + 3315 (the completion engine processing `h`
published results and then doing `requests -= handled`); the device can
only hand back results whose descriptors were published, hence the bound
`completed + h ≤ published`. -/
inductive FlowReach : FlowState → Prop where
  | init : FlowReach ⟨0, 0, 0, 0, 0⟩
  | incr (s : FlowState) (n : Nat) : FlowReach s → s.pending = 0 →
      FlowReach ⟨s.requests + n, s.admitted + n, s.published,
                 s.completed, n⟩
  | publish (s : FlowState) : FlowReach s →
      FlowReach ⟨s.requests, s.admitted, s.published + s.pending,
                 s.completed, 0⟩
  | complete (s : FlowState) (h : Nat) : FlowReach s →
      s.completed + h ≤ s.published →
      FlowReach ⟨s.requests - h, s.admitted, s.published,
                 s.completed + h, s.pending⟩

/-! Claim C5: the request loop of safexcel_dequeue (safexcel_hash.c lines
3022-3116).  Requests are identified by `Nat` ids.  A `send` callback
returns `(ret, commands, results)` as in `ctx->send(req, ring, &commands,
&results)`; `ret = 0` is success.  The admission queue is modelled as a
list of `(request, optional backlog)` pairs, one pair per
`crypto_get_backlog`/`crypto_dequeue_request` pop (these kernel queue
primitives are outside the repository).  `comps` records the completion
callbacks the loop invokes: only `backlog->complete(backlog,
-EINPROGRESS)` calls occur in the loop (-EINPROGRESS = -115). -/

structure RingQueueState where
  queue : List (Nat × Option Nat)
  req : Option Nat
  backlog : Option Nat
deriving DecidableEq

/-- result of one dequeue invocation: final (req, backlog) stall state,
remaining queue, accumulated cdesc / rdesc / nreq counts, and the list of
completion invocations (request id, status). -/
structure DequeueResult where
  req : Option Nat
  backlog : Option Nat
  queue : List (Nat × Option Nat)
  cdesc : Nat
  rdesc : Nat
  nreq : Nat
  comps : List (Nat × Int)
deriving DecidableEq

/-- the `handle_req` loop body of safexcel_dequeue: processes the current
request `cur`, then the rest of the queue.  On `send` failure (any
nonzero `ret`, lines 3060-3061 and 3079-3085) the request and backlog are
saved as the stall state and the loop stops without recording partial
counts for that request. -/
def dequeueRun (send : Nat → Int × Nat × Nat) :
    Nat → Option Nat → List (Nat × Option Nat) →
    Nat → Nat → Nat → List (Nat × Int) → DequeueResult
  | r, b, rest, cdesc, rdesc, nreq, comps =>
    let ret := (send r).1
    let commands := (send r).2.1
    let results := (send r).2.2
    if ret ≠ 0 then
      ⟨some r, b, rest, cdesc, rdesc, nreq, comps⟩
    else
      let comps' := comps ++ (match b with
        | some bb => [(bb, -115)]
        | none => [])
      let cdesc' := if commands = 0 ∧ results = 0 then cdesc
        else cdesc + commands
      let rdesc' := if commands = 0 ∧ results = 0 then rdesc
        else rdesc + results
      let nreq' := if commands = 0 ∧ results = 0 then nreq else nreq + 1
      match rest with
      | [] => ⟨none, none, [], cdesc', rdesc', nreq', comps'⟩
      | (r', b') :: rest' =>
        dequeueRun send r' b' rest' cdesc' rdesc' nreq' comps'

/-- safexcel_dequeue's request loop (lines 3040-3077): a previously
stalled request (`st.req`, with its saved backlog) is resumed first;
otherwise requests are popped from the admission queue. -/
def safexcel_dequeue (send : Nat → Int × Nat × Nat)
    (st : RingQueueState) : DequeueResult :=
  match st.req with
  | some r => dequeueRun send r st.backlog st.queue 0 0 0 []
  | none =>
    match st.queue with
    | [] => ⟨none, none, [], 0, 0, 0, []⟩
    | (r, b) :: rest => dequeueRun send r b rest 0 0 0 []

/-! Theorems. -/

/-- C10: for every hash request whose total accumulated length is zero
(req->len == 0 and areq->nbytes == 0), safexcel_ahash_final copies the
algorithm's precomputed empty-message digest (MD5, SHA-1, SHA-224,
SHA-256, SHA-384 or SHA-512) into the caller's result buffer and returns
0 immediately (`FinalAction.complete`), without enqueuing the request to
a ring. -/
theorem ahash_final_zero_length_digest :
    safexcel_ahash_final 0 0 0 CONTEXT_CONTROL_CRYPTO_ALG_MD5 =
      .complete (some md5_zero_message_hash) ∧
    safexcel_ahash_final 0 0 0 CONTEXT_CONTROL_CRYPTO_ALG_SHA1 =
      .complete (some sha1_zero_message_hash) ∧
    safexcel_ahash_final 0 0 0 CONTEXT_CONTROL_CRYPTO_ALG_SHA224 =
      .complete (some sha224_zero_message_hash) ∧
    safexcel_ahash_final 0 0 0 CONTEXT_CONTROL_CRYPTO_ALG_SHA256 =
      .complete (some sha256_zero_message_hash) ∧
    safexcel_ahash_final 0 0 0 CONTEXT_CONTROL_CRYPTO_ALG_SHA384 =
      .complete (some sha384_zero_message_hash) ∧
    safexcel_ahash_final 0 0 0 CONTEXT_CONTROL_CRYPTO_ALG_SHA512 =
      .complete (some sha512_zero_message_hash) := by
  decide

/-- C4 counterexample: the error code 0x100 (bit 8) is nonzero and is not
the authentication-failure pattern BIT(9), yet safexcel_rdesc_check_errors
returns -EINVAL (-22) for it, not the fatal descriptor-error result -EIO
(-5) that codes matching the 0x407f mask (such as 0x1) receive.  So "any
other nonzero code returns the fatal descriptor-error result" is false. -/
theorem rdesc_check_errors_nonfatal_other_code :
    safexcel_rdesc_check_errors 256 = -22 ∧
    safexcel_rdesc_check_errors 1 = -5 ∧
    ((-22 : Int) = -5 → False) := by
  decide

/-- C4 (amended): safexcel_rdesc_check_errors returns success exactly
when the code is zero; returns the fatal descriptor error -EIO exactly
when the code has a bit inside the fatal mask 0x407f (bits 0-6 and 14);
returns the distinct non-fatal authentication-failure error -EBADMSG
exactly when the code equals BIT(9); and any other nonzero code yields
the non-fatal -EINVAL, not the fatal result. -/
theorem rdesc_check_errors_classification (ec : Nat) :
    (safexcel_rdesc_check_errors ec = 0 ↔ ec = 0) ∧
    (safexcel_rdesc_check_errors ec = -5 ↔ ec &&& 0x407f ≠ 0) ∧
    (safexcel_rdesc_check_errors ec = -74 ↔
      (ec &&& 0x407f = 0 ∧ ec = 2 ^ 9)) ∧
    (ec ≠ 0 → ec &&& 0x407f = 0 → ec ≠ 2 ^ 9 →
      safexcel_rdesc_check_errors ec = -22) := by
  have h512 : (2 ^ 9 : Nat) &&& 0x407f = 0 := by decide
  unfold safexcel_rdesc_check_errors
  split_ifs with h1 h2 h3 <;>
    refine ⟨?_, ?_, ?_, ?_⟩ <;> simp_all

/-- C4 witness: code 0x400 (bit 10) is nonzero, outside the fatal mask
and not the authentication pattern, and indeed maps to -EINVAL. -/
theorem rdesc_check_errors_classification_witness :
    safexcel_rdesc_check_errors 1024 = -22 :=
  (rdesc_check_errors_classification 1024).2.2.2 (by decide) (by decide)
    (by decide)

/-- or of a power of two with a value below it is their sum (the C idiom
`BIT(23) | n` for n < 2^23). -/
theorem two_pow_lor_eq_add {n x : Nat} (h : x < 2 ^ n) :
    2 ^ n ||| x = 2 ^ n + x := by
  apply Nat.eq_of_testBit_eq
  intro j
  rcases Nat.lt_trichotomy j n with hj | hj | hj
  · rw [Nat.testBit_lor, Nat.testBit_two_pow_of_ne (by omega : n ≠ j),
      Nat.testBit_two_pow_add_gt hj]
    simp
  · subst hj
    rw [Nat.testBit_lor, Nat.testBit_two_pow_self,
      Nat.testBit_two_pow_add_eq, Nat.testBit_lt_two_pow h]
    simp
  · have hx : x < 2 ^ j :=
      lt_of_lt_of_le h (Nat.pow_le_pow_right (by omega) (by omega))
    have hadd : 2 ^ n + x < 2 ^ j := by
      have h2 : 2 ^ n + x < 2 ^ (n + 1) := by
        have := Nat.pow_succ 2 n
        omega
      exact lt_of_lt_of_le h2 (Nat.pow_le_pow_right (by omega) (by omega))
    rw [Nat.testBit_lor, Nat.testBit_two_pow_of_ne (by omega : n ≠ j),
      Nat.testBit_lt_two_pow hx, Nat.testBit_lt_two_pow hadd]
    simp

/-- C6: whenever safexcel_try_push_requests re-arms the interrupt
threshold with at least one request in flight, the value it computes is
min(requests, EIP197_MAX_BATCH_SZ) with EIP197_MAX_BATCH_SZ = 65535, and
the packet-count field (bits 0-22) of the register value it writes equals
exactly that minimum, with the PKT_MODE bit (bit 23) set. -/
theorem try_push_requests_coalescing (requests : Int)
    (hpos : 1 ≤ requests) :
    (safexcel_try_push_requests requests).2 = min requests 65535 ∧
    ((safexcel_try_push_requests requests).1 % 2 ^ 23 : Nat) =
      (min requests 65535).toNat ∧
    (safexcel_try_push_requests requests).1 / 2 ^ 23 = 1 := by
  have hle : min requests 65535 ≤ 65535 := min_le_right _ _
  have hge : (1 : Int) ≤ min requests 65535 := le_min hpos (by omega)
  have htn : (min requests 65535).toNat < 2 ^ 23 := by omega
  have hval : (safexcel_try_push_requests requests).1 =
      2 ^ 23 + (min requests 65535).toNat := by
    show EIP197_HIA_RDR_THRESH_PKT_MODE |||
        EIP197_HIA_RDR_THRESH_PROC_PKT (min requests EIP197_MAX_BATCH_SZ).toNat =
      2 ^ 23 + (min requests 65535).toNat
    unfold EIP197_HIA_RDR_THRESH_PKT_MODE EIP197_HIA_RDR_THRESH_PROC_PKT
      EIP197_MAX_BATCH_SZ
    exact two_pow_lor_eq_add htn
  refine ⟨rfl, ?_, ?_⟩
  · rw [hval]
    omega
  · rw [hval]
    omega

/-- C6 witness: with 100000 requests in flight the programmed packet
count is capped at the hard batch-size ceiling 65535. -/
theorem try_push_requests_coalescing_witness :
    (safexcel_try_push_requests 100000).2 = min 100000 65535 ∧
    ((safexcel_try_push_requests 100000).1 % 2 ^ 23 : Nat) =
      (min (100000 : Int) 65535).toNat ∧
    (safexcel_try_push_requests 100000).1 / 2 ^ 23 = 1 :=
  try_push_requests_coalescing 100000 (by decide)

/-- C3: in every reachable state of the in-flight accounting protocol --
for every interleaving of admission batches (counter increment at
safexcel_hash.c line 3099, RDR prep-count publication at line 3102, in
that order) and completion runs (processing only published results, then
decrementing at line 3315) -- the in-flight counter `requests` equals
requests admitted minus requests fully completed; completions never
outrun publications; and while published results are outstanding the
counter is strictly positive, so it never transits through a false
zero. -/
theorem inflight_counter_accounting (s : FlowState) (hs : FlowReach s) :
    s.requests = (s.admitted : Int) - s.completed ∧
    s.completed ≤ s.published ∧
    s.published + s.pending = s.admitted ∧
    0 ≤ s.requests ∧
    (s.completed < s.published → 0 < s.requests) := by
  induction hs with
  | init => simp
  | incr s n _ hp ih =>
    obtain ⟨h1, h2, h3, -, -⟩ := ih
    exact ⟨by dsimp only; omega, by dsimp only; omega, by dsimp only; omega,
      by dsimp only; omega, fun hlt => by dsimp only at hlt ⊢; omega⟩
  | publish s _ ih =>
    obtain ⟨h1, h2, h3, -, -⟩ := ih
    exact ⟨by dsimp only; omega, by dsimp only; omega, by dsimp only; omega,
      by dsimp only; omega, fun hlt => by dsimp only at hlt ⊢; omega⟩
  | complete s h _ hb ih =>
    obtain ⟨h1, h2, h3, -, -⟩ := ih
    exact ⟨by dsimp only; omega, by dsimp only; omega, by dsimp only; omega,
      by dsimp only; omega, fun hlt => by dsimp only at hlt ⊢; omega⟩

/-- C3 witness: the state after admitting a batch of two requests,
publishing their result descriptors and completing one of them. -/
theorem inflight_counter_accounting_witness :
    (1 : Int) = ((2 : Nat) : Int) - ((1 : Nat) : Int) ∧
    (1 : Nat) ≤ 2 ∧ (2 : Nat) + 0 = 2 ∧ (0 : Int) ≤ 1 ∧
    ((1 : Nat) < 2 → (0 : Int) < 1) :=
  inflight_counter_accounting ⟨1, 2, 2, 1, 0⟩
    (FlowReach.complete ⟨2, 2, 2, 0, 0⟩ 1
      (FlowReach.publish ⟨2, 2, 0, 0, 2⟩
        (FlowReach.incr ⟨0, 0, 0, 0, 0⟩ 2 FlowReach.init rfl))
      (by decide))

/-- C5 counterexample: with a `send` callback that fails with -EINVAL
(-22, not the ring-full -ENOMEM), safexcel_dequeue saves the request as
the per-ring stalled state -- so it will be retried on the next
invocation -- and invokes no completion callback for it; the claim that
a non-ring-full send failure propagates to the request's completion path
and is not retried is false. -/
theorem dequeue_other_error_retried :
    safexcel_dequeue (fun _ => (-22, 0, 0)) ⟨[(7, none)], none, none⟩ =
      ⟨some 7, none, [], 0, 0, 0, []⟩ := by
  decide

/-- C5 (amended): when a request's send callback fails for any reason
(ring-full -ENOMEM or otherwise), safexcel_dequeue saves the request and
its backlog target as the stalled state -- no partial counts recorded, no
completion invoked for it, request never dropped -- and the next
invocation retries exactly that request first. -/
theorem dequeue_send_failure_stalls (send : Nat → Int × Nat × Nat)
    (r : Nat) (b : Option Nat) (rest : List (Nat × Option Nat))
    (cdesc rdesc nreq : Nat) (comps : List (Nat × Int))
    (e : Int) (c res : Nat) (hsend : send r = (e, c, res)) (he : e ≠ 0) :
    dequeueRun send r b rest cdesc rdesc nreq comps =
      ⟨some r, b, rest, cdesc, rdesc, nreq, comps⟩ ∧
    (∀ q : List (Nat × Option Nat),
      safexcel_dequeue send ⟨q, some r, b⟩ =
        dequeueRun send r b q 0 0 0 []) := by
  constructor
  · unfold dequeueRun
    rw [hsend]
    simp [he]
  · intro q
    rfl

/-- C5 witness: a ring-full failure (-ENOMEM = -12) on request 3 with a
backlog target 9 is saved whole and retried first next time. -/
theorem dequeue_send_failure_stalls_witness :
    dequeueRun (fun _ => (-12, 0, 0)) 3 (some 9) [(4, none)] 0 0 0 [] =
      ⟨some 3, some 9, [(4, none)], 0, 0, 0, []⟩ ∧
    (∀ q : List (Nat × Option Nat),
      safexcel_dequeue (fun _ => (-12, 0, 0)) ⟨q, some 3, some 9⟩ =
        dequeueRun (fun _ => (-12, 0, 0)) 3 (some 9) q 0 0 0 []) :=
  dequeue_send_failure_stalls (fun _ => (-12, 0, 0)) 3 (some 9)
    [(4, none)] 0 0 0 [] (-12) 0 0 rfl (by decide)

/-- if the bounded ownership poll exits with a nonzero count (success),
then one of the loads it performed -- at most EIP197_OWN_POLL_COUNT - 1
of them -- observed the magic value, and the successful load is the last
one. -/
theorem ownPoll_pos_magic (obs : Nat → Nat) :
    ∀ cnt i, ownPoll obs cnt i ≠ 0 →
      ∃ j, i ≤ j ∧ j < i + cnt - 1 ∧ obs j = EIP197_OWNERSHIP_MAGIC := by
  intro cnt
  induction cnt with
  | zero => intro i h; simp [ownPoll] at h
  | succ c ih =>
    intro i h
    unfold ownPoll at h
    by_cases hc : c = 0
    · simp [hc] at h
    · simp only [hc, if_false] at h
      by_cases hm : obs i = EIP197_OWNERSHIP_MAGIC
      · exact ⟨i, le_refl i, by omega, hm⟩
      · simp only [hm, if_false] at h
        obtain ⟨j, hj1, hj2, hj3⟩ := ih (i + 1) h
        exact ⟨j, by omega, by omega, hj3⟩

/-- if no load ever observes the magic value, the bounded poll fails. -/
theorem ownPoll_zero_of_never (obs : Nat → Nat)
    (h : ∀ j, obs j ≠ EIP197_OWNERSHIP_MAGIC) :
    ∀ cnt i, ownPoll obs cnt i = 0 := by
  intro cnt
  induction cnt with
  | zero => intro i; simp [ownPoll]
  | succ c ih =>
    intro i
    unfold ownPoll
    by_cases hc : c = 0
    · simp [hc]
    · simp only [hc, if_false, h i, if_false]
      exact ih (i + 1)

/-- C2: with ownership words enabled, safexcel_rdr_next_rptr never
returns a slot as ready unless one of its bounded marker polls observed
the magic value; if the marker never becomes the magic value within the
bound, it returns ERR_PTR(-ENOENT) ("not yet available") leaving both
the caller's read cursor and the marker untouched, so a retry re-reads
the same slot; and a successful read performs exactly one marker store,
overwriting it with the complement of the magic value, which re-arms the
slot: an immediate re-read of the cleared marker reports not-available
again. -/
theorem rdr_next_rptr_ownership (off : Int) (r : DescRing) (read : Int)
    (obs : Nat → Nat) :
    ((∀ j, obs j ≠ EIP197_OWNERSHIP_MAGIC) →
      safexcel_rdr_next_rptr off r read obs = (none, none, read)) ∧
    (∀ p w rd,
      safexcel_rdr_next_rptr off r read obs = (some p, w, rd) →
      (∃ j, j < EIP197_OWN_POLL_COUNT - 1 ∧
        obs j = EIP197_OWNERSHIP_MAGIC) ∧
      p = read ∧
      w = some (u32_not EIP197_OWNERSHIP_MAGIC) ∧
      u32_not EIP197_OWNERSHIP_MAGIC ≠ EIP197_OWNERSHIP_MAGIC ∧
      safexcel_rdr_next_rptr off r rd
          (fun _ => u32_not EIP197_OWNERSHIP_MAGIC) = (none, none, rd)) := by
  have hclear : ∀ j : Nat,
      (fun _ : Nat => u32_not EIP197_OWNERSHIP_MAGIC) j ≠
        EIP197_OWNERSHIP_MAGIC := by
    intro j
    show u32_not EIP197_OWNERSHIP_MAGIC ≠ EIP197_OWNERSHIP_MAGIC
    decide
  constructor
  · intro hno
    unfold safexcel_rdr_next_rptr
    rw [if_pos (by decide : EIP197_RD_OWN_WORD ≠ 0),
      if_pos (ownPoll_zero_of_never obs hno EIP197_OWN_POLL_COUNT 0)]
  · intro p w rd heq
    by_cases h0 : ownPoll obs EIP197_OWN_POLL_COUNT 0 = 0
    · have : safexcel_rdr_next_rptr off r read obs = (none, none, read) := by
        unfold safexcel_rdr_next_rptr
        rw [if_pos (by decide : EIP197_RD_OWN_WORD ≠ 0), if_pos h0]
      rw [this] at heq
      simp at heq
    · have hform : safexcel_rdr_next_rptr off r read obs =
          (some read, some (u32_not EIP197_OWNERSHIP_MAGIC),
           if read = r.base_end then r.base else read + off) := by
        unfold safexcel_rdr_next_rptr
        rw [if_pos (by decide : EIP197_RD_OWN_WORD ≠ 0), if_neg h0]
      rw [hform, Prod.mk.injEq, Prod.mk.injEq] at heq
      obtain ⟨hp, hw, hrd⟩ := heq
      obtain ⟨j, -, hj2, hj3⟩ :=
        ownPoll_pos_magic obs EIP197_OWN_POLL_COUNT 0 h0
      refine ⟨⟨j, by omega, hj3⟩, (Option.some.inj hp).symm, hw.symm,
        by decide, ?_⟩
      unfold safexcel_rdr_next_rptr
      rw [if_pos (by decide : EIP197_RD_OWN_WORD ≠ 0),
        if_pos (ownPoll_zero_of_never _ hclear EIP197_OWN_POLL_COUNT 0)]

/-- C2 witness: on a 4-entry result ring with stride 8 whose first slot's
marker reads as the magic value, the read succeeds at slot address 0,
clears the marker to the complement, and an immediate retry of the next
slot with the cleared marker value reports not-available. -/
theorem rdr_next_rptr_ownership_witness :
    (∃ j, j < EIP197_OWN_POLL_COUNT - 1 ∧
      (fun _ : Nat => EIP197_OWNERSHIP_MAGIC) j =
        EIP197_OWNERSHIP_MAGIC) ∧
    (0 : Int) = (0 : Int) ∧
    (some (u32_not EIP197_OWNERSHIP_MAGIC) : Option Nat) =
      some (u32_not EIP197_OWNERSHIP_MAGIC) ∧
    u32_not EIP197_OWNERSHIP_MAGIC ≠ EIP197_OWNERSHIP_MAGIC ∧
    safexcel_rdr_next_rptr 8 (ring_init 0 8 4) 8
        (fun _ => u32_not EIP197_OWNERSHIP_MAGIC) = (none, none, 8) :=
  (rdr_next_rptr_ownership 8 (ring_init 0 8 4) 0
      (fun _ => EIP197_OWNERSHIP_MAGIC)).2 0
    (some (u32_not EIP197_OWNERSHIP_MAGIC)) 8 (by decide)

/-- C9 counterexample: with 3 configured rings and the 32-bit ring-used
counter at 0xFFFFFFFE, the next 3 consecutive safexcel_select_ring calls
return rings 0, 0 and 1: ring 2 is never selected in that run, so a run
of N = ring-count consecutive calls does not select each ring exactly
once. -/
theorem select_ring_wrap_skips_ring :
    selectSeq 4294967294 3 3 = [0, 0, 1] ∧
    List.count 2 (selectSeq 4294967294 3 3) = 0 := by
  decide

/-- helper: below the wrap boundary the counter just increments, so the
selections of `k` consecutive calls are (c + 1 + i) % rings for i < k. -/
theorem selectSeq_no_wrap (rings : Nat) :
    ∀ k c, c + k < UINT32_MOD →
      selectSeq c rings k =
        (List.range k).map (fun i => (c + 1 + i) % rings) := by
  intro k
  induction k with
  | zero => intro c _; simp [selectSeq]
  | succ k ih =>
    intro c hc
    have hc1 : (c + 1) % UINT32_MOD = c + 1 :=
      Nat.mod_eq_of_lt (by omega)
    have hfun : ((fun i => (c + 1 + i) % rings) ∘ Nat.succ) =
        fun i => (c + 1 + 1 + i) % rings := by
      funext i
      simp only [Function.comp_apply]
      congr 1
      omega
    unfold selectSeq
    simp only [safexcel_select_ring, hc1]
    rw [List.range_succ_eq_map, List.map_cons, List.map_map, hfun,
      ih (c + 1) (by omega)]

/-- injectivity of i ↦ (a + i) % n on i < n. -/
theorem add_mod_inj_on (n a i j : Nat) (_hn : 0 < n) (hi : i < n)
    (hj : j < n) (h : (a + i) % n = (a + j) % n) : i = j := by
  have h2 : i % n = j % n := Nat.ModEq.add_left_cancel' a h
  rwa [Nat.mod_eq_of_lt hi, Nat.mod_eq_of_lt hj] at h2

/-- surjectivity of i ↦ (a + i) % n from i < n onto r < n. -/
theorem add_mod_surj_on (n a r : Nat) (hn : 0 < n) (hr : r < n) :
    ∃ i, i < n ∧ (a + i) % n = r := by
  have ht : a % n < n := Nat.mod_lt _ hn
  by_cases hc : a % n ≤ r
  · refine ⟨r - a % n, by omega, ?_⟩
    rw [Nat.add_mod, Nat.mod_eq_of_lt (show r - a % n < n by omega),
      Nat.mod_eq_of_lt (show a % n + (r - a % n) < n by omega)]
    omega
  · refine ⟨r + n - a % n, by omega, ?_⟩
    rw [Nat.add_mod, Nat.mod_eq_of_lt (show r + n - a % n < n by omega)]
    have : a % n + (r + n - a % n) = r + n := by omega
    rw [this, Nat.add_mod_right, Nat.mod_eq_of_lt hr]

/-- C9 (amended): every safexcel_select_ring call increments the 32-bit
ring-used counter (wrapping modulo 2^32) and returns the new value
reduced modulo the ring count -- in unsigned arithmetic, since
config.rings is a u32 -- so the returned index always lies in
[0, rings); and a run of N = rings consecutive calls selects each ring
exactly once provided the counter does not cross the 2^32 wrap during
the run (at the wrap, rings not dividing 2^32 breaks the round-robin, as
the counterexample shows). -/
theorem select_ring_round_robin (c rings : Nat) (hr : 0 < rings) :
    ((safexcel_select_ring c rings).1 =
      ((c + 1) % UINT32_MOD) % rings ∧
     (safexcel_select_ring c rings).1 < rings ∧
     (safexcel_select_ring c rings).2 = (c + 1) % UINT32_MOD) ∧
    (c + rings < UINT32_MOD →
      ∀ r, r < rings → List.count r (selectSeq c rings rings) = 1) := by
  refine ⟨⟨rfl, Nat.mod_lt _ hr, rfl⟩, ?_⟩
  intro hnw r hrlt
  rw [selectSeq_no_wrap rings rings c hnw]
  apply List.count_eq_one_of_mem
  · apply List.Nodup.map_on
    · intro x hx y hy hxy
      exact add_mod_inj_on rings (c + 1) x y hr
        (List.mem_range.mp hx) (List.mem_range.mp hy) hxy
    · exact List.nodup_range rings
  · obtain ⟨i, hi, hieq⟩ := add_mod_surj_on rings (c + 1) r hr hrlt
    exact List.mem_map.mpr ⟨i, List.mem_range.mpr hi, hieq⟩

/-- C9 witness: 4 rings, counter at 10: the call returns ring (11 % 4) =
3 and a wrap-free run of 4 calls selects each ring exactly once. -/
theorem select_ring_round_robin_witness :
    (((safexcel_select_ring 10 4).1 = ((10 + 1) % UINT32_MOD) % 4 ∧
      (safexcel_select_ring 10 4).1 < 4 ∧
      (safexcel_select_ring 10 4).2 = (10 + 1) % UINT32_MOD) ∧
     (10 + 4 < UINT32_MOD →
       ∀ r, r < 4 → List.count r (selectSeq 10 4 4) = 1)) :=
  select_ring_round_robin 10 4 (by decide)

/-- reduction of a modulus applied to a value below twice the modulus. -/
theorem mod_two_cases (x n : Nat) (h : x < 2 * n) :
    x % n = if x < n then x else x - n := by
  split_ifs with hx
  · exact Nat.mod_eq_of_lt hx
  · rw [Nat.mod_eq_sub_mod (by omega)]
    exact Nat.mod_eq_of_lt (by omega)

/-- slot addresses are injective in the slot index. -/
theorem slotPtr_inj (b : Int) (off : Nat) (hoff : 0 < off) {i j : Nat}
    (h : slotPtr b off i = slotPtr b off j) : i = j := by
  unfold slotPtr at h
  have hoffz : (off : Int) ≠ 0 := by
    exact_mod_cast Nat.pos_iff_ne_zero.mp hoff
  have h2 : (off : Int) * i = (off : Int) * j := by linarith
  have h3 : (i : Int) = j := mul_left_cancel₀ hoffz h2
  exact_mod_cast h3

/-- slot 0 is the base address. -/
theorem slotPtr_zero (b : Int) (off : Nat) : slotPtr b off 0 = b := by
  simp [slotPtr]

/-- advancing one stride moves to the next slot. -/
theorem slotPtr_succ (b : Int) (off i : Nat) :
    slotPtr b off i + (off : Int) = slotPtr b off (i + 1) := by
  unfold slotPtr
  push_cast
  ring

/-- stepping back one stride moves to the previous slot. -/
theorem slotPtr_pred (b : Int) (off i : Nat) (h : 1 ≤ i) :
    slotPtr b off i - (off : Int) = slotPtr b off (i - 1) := by
  unfold slotPtr
  have hcast : ((i - 1 : Nat) : Int) = (i : Int) - 1 := by omega
  rw [hcast]
  ring

/-- the "write == read - stride" part of the ring-full test identifies
adjacent slot indices. -/
theorem slot_shift_iff (b : Int) (off : Nat) (hoff : 0 < off)
    (wi ri : Nat) :
    slotPtr b off wi = slotPtr b off ri - (off : Int) ↔ wi + 1 = ri := by
  unfold slotPtr
  constructor
  · intro h
    have hoffz : (off : Int) ≠ 0 := by
      exact_mod_cast Nat.pos_iff_ne_zero.mp hoff
    have h2 : (off : Int) * ((wi : Int) + 1) = (off : Int) * ri := by
      rw [mul_add, mul_one]
      linarith
    have h3 : (wi : Int) + 1 = ri := mul_left_cancel₀ hoffz h2
    omega
  · intro h
    subst h
    push_cast
    ring

/-- the full test of safexcel_cdr_next_wptr / safexcel_rdr_next_wptr
holds exactly when the write cursor is one slot behind the read cursor
modulo the ring size. -/
theorem next_wptr_guard_iff (b : Int) (off n wi ri : Nat) (hoff : 0 < off)
    (hn : 0 < n) (hwi : wi < n) (hri : ri < n) :
    (slotPtr b off wi = slotPtr b off ri - (off : Int) ∨
      (slotPtr b off ri = b ∧ slotPtr b off wi = slotPtr b off (n - 1)))
      ↔ (wi + 1) % n = ri := by
  rw [slot_shift_iff b off hoff wi ri]
  have hbase : slotPtr b off ri = b ↔ ri = 0 := by
    constructor
    · intro h
      exact slotPtr_inj b off hoff (h.trans (slotPtr_zero b off).symm)
    · intro h
      rw [h, slotPtr_zero]
  have hend : slotPtr b off wi = slotPtr b off (n - 1) ↔ wi = n - 1 :=
    ⟨fun h => slotPtr_inj b off hoff h, fun h => by rw [h]⟩
  rw [hbase, hend, mod_two_cases (wi + 1) n (by omega)]
  split_ifs with h1 <;> omega

/-- full behavioural specification of the shared next_wptr body on a
well-formed ring, in slot-index terms. -/
theorem desc_next_wptr_spec (b : Int) (off n wi ri : Nat) (hoff : 0 < off)
    (hn : 0 < n) (hwi : wi < n) (hri : ri < n) :
    desc_next_wptr (off : Int) (ringOf b off n wi ri) =
      if (wi + 1) % n = ri then (none, ringOf b off n wi ri)
      else (some (slotPtr b off wi), ringOf b off n ((wi + 1) % n) ri) := by
  have hguard := next_wptr_guard_iff b off n wi ri hoff hn hwi hri
  unfold desc_next_wptr ringOf
  dsimp only
  by_cases hfull : (wi + 1) % n = ri
  · rw [if_pos hfull, if_pos (hguard.mpr hfull)]
  · rw [if_neg hfull, if_neg (fun hg => hfull (hguard.mp hg))]
    by_cases hwe : wi = n - 1
    · subst hwe
      rw [if_pos rfl,
        show (n - 1 + 1) % n = 0 by rw [show n - 1 + 1 = n by omega, Nat.mod_self],
        slotPtr_zero]
    · rw [if_neg (fun he => hwe (slotPtr_inj b off hoff he)),
        Nat.mod_eq_of_lt (show wi + 1 < n by omega), slotPtr_succ]

/-- behavioural specification of safexcel_cdr_next_rptr on a well-formed
ring: returns the read cursor and advances it one slot, wrapping. -/
theorem cdr_next_rptr_spec (b : Int) (off n wi ri : Nat) (hoff : 0 < off)
    (hn : 0 < n) (_hwi : wi < n) (hri : ri < n) :
    safexcel_cdr_next_rptr (off : Int) (ringOf b off n wi ri) =
      (slotPtr b off ri, ringOf b off n wi ((ri + 1) % n)) := by
  unfold safexcel_cdr_next_rptr ringOf
  dsimp only
  by_cases hre : ri = n - 1
  · subst hre
    rw [if_pos rfl,
      show (n - 1 + 1) % n = 0 by rw [show n - 1 + 1 = n by omega, Nat.mod_self],
      slotPtr_zero]
  · rw [if_neg (fun he => hre (slotPtr_inj b off hoff he)),
      Nat.mod_eq_of_lt (show ri + 1 < n by omega), slotPtr_succ]

/-- behavioural specification of the shared rollback body on a
well-formed ring: no-op when the cursors coincide, else the write cursor
steps back one slot modulo the ring size. -/
theorem desc_rollback_wptr_spec (b : Int) (off n wi ri : Nat)
    (hoff : 0 < off) (hn : 0 < n) (hwi : wi < n) (_hri : ri < n) :
    desc_rollback_wptr (off : Int) (ringOf b off n wi ri) =
      if wi = ri then ringOf b off n wi ri
      else ringOf b off n ((wi + (n - 1)) % n) ri := by
  unfold desc_rollback_wptr ringOf
  dsimp only
  by_cases heq : wi = ri
  · rw [if_pos heq, if_pos (by rw [heq])]
  · rw [if_neg heq, if_neg (fun he => heq (slotPtr_inj b off hoff he))]
    by_cases hw0 : wi = 0
    · subst hw0
      rw [if_pos (slotPtr_zero b off),
        Nat.mod_eq_of_lt (show 0 + (n - 1) < n by omega), Nat.zero_add]
    · rw [if_neg (fun he => hw0 (slotPtr_inj b off hoff
        (he.trans (slotPtr_zero b off).symm))),
        show (wi + (n - 1)) % n = wi - 1 by
          rw [mod_two_cases (wi + (n - 1)) n (by omega)]
          split_ifs with h1 <;> omega,
        slotPtr_pred b off wi (by omega)]

/-- cursor distance is below the ring size. -/
theorem ringDist_lt (n wi ri : Nat) (hn : 0 < n) : ringDist n wi ri < n :=
  Nat.mod_lt _ hn

/-- the ring-full index condition is distance = capacity - 1. -/
theorem ringDist_full_iff (n wi ri : Nat) (hn : 0 < n) (hwi : wi < n)
    (hri : ri < n) : (wi + 1) % n = ri ↔ ringDist n wi ri = n - 1 := by
  unfold ringDist
  have h1 := mod_two_cases (wi + 1) n (by omega)
  rw [mod_two_cases (wi + n - ri) n (by omega)]
  split_ifs at h1 ⊢ <;> omega

/-- the empty index condition is distance = 0. -/
theorem ringDist_zero_iff (n wi ri : Nat) (hn : 0 < n) (hwi : wi < n)
    (hri : ri < n) : wi = ri ↔ ringDist n wi ri = 0 := by
  unfold ringDist
  rw [mod_two_cases (wi + n - ri) n (by omega)]
  split_ifs <;> omega

/-- a non-full write advance increments the cursor distance. -/
theorem ringDist_write_succ (n wi ri : Nat) (hn : 0 < n) (hwi : wi < n)
    (hri : ri < n) (hnf : (wi + 1) % n ≠ ri) :
    ringDist n ((wi + 1) % n) ri = ringDist n wi ri + 1 := by
  unfold ringDist
  have h1 := mod_two_cases (wi + 1) n (by omega)
  have ht : (wi + 1) % n < n := Nat.mod_lt _ hn
  rw [mod_two_cases ((wi + 1) % n + n - ri) n (by omega),
    mod_two_cases (wi + n - ri) n (by omega)]
  split_ifs at h1 ⊢ <;> omega

/-- a read advance decrements a positive cursor distance. -/
theorem ringDist_read_pred (n wi ri : Nat) (hn : 0 < n) (hwi : wi < n)
    (hri : ri < n) (hpos : 0 < ringDist n wi ri) :
    ringDist n wi ((ri + 1) % n) = ringDist n wi ri - 1 := by
  unfold ringDist at hpos ⊢
  have h1 := mod_two_cases (ri + 1) n (by omega)
  have ht : (ri + 1) % n < n := Nat.mod_lt _ hn
  rw [mod_two_cases (wi + n - ri) n (by omega)] at hpos
  rw [mod_two_cases (wi + n - (ri + 1) % n) n (by omega),
    mod_two_cases (wi + n - ri) n (by omega)]
  split_ifs at h1 hpos ⊢ <;> omega

/-- a rollback on a non-empty ring decrements the cursor distance. -/
theorem ringDist_rollback_pred (n wi ri : Nat) (hn : 0 < n) (hwi : wi < n)
    (hri : ri < n) (hne : wi ≠ ri) :
    ringDist n ((wi + (n - 1)) % n) ri = ringDist n wi ri - 1 := by
  unfold ringDist
  have h1 := mod_two_cases (wi + (n - 1)) n (by omega)
  have ht : (wi + (n - 1)) % n < n := Nat.mod_lt _ hn
  rw [mod_two_cases ((wi + (n - 1)) % n + n - ri) n (by omega),
    mod_two_cases (wi + n - ri) n (by omega)]
  split_ifs at h1 ⊢ <;> omega

/-- the abstraction invariant tying a concrete (ring, ghost count) state
to slot indices: cursors sit on slots and the ghost count of
reserved-but-unread slots equals the cursor distance. -/
def AbsOk (b : Int) (off n : Nat) (s : DescRing × Nat) : Prop :=
  ∃ wi ri, wi < n ∧ ri < n ∧
    s.1 = ringOf b off n wi ri ∧ s.2 = ringDist n wi ri

/-- one valid ring operation preserves the abstraction invariant. -/
theorem ringStep_preserves (b : Int) (off n : Nat) (hoff : 0 < off)
    (hn : 0 < n) (s : DescRing × Nat) (hs : AbsOk b off n s)
    (op : RingOp) (hop : op = RingOp.read → 0 < s.2) :
    AbsOk b off n (ringStep (off : Int) s op) := by
  obtain ⟨wi, ri, hwi, hri, hr, hc⟩ := hs
  obtain ⟨r, c⟩ := s
  simp only at hr hc
  subst hr
  subst hc
  cases op with
  | write =>
    by_cases hfull : (wi + 1) % n = ri
    · have hstep : ringStep (off : Int)
          (ringOf b off n wi ri, ringDist n wi ri) RingOp.write =
          (ringOf b off n wi ri, ringDist n wi ri) := by
        unfold ringStep
        dsimp only
        rw [desc_next_wptr_spec b off n wi ri hoff hn hwi hri,
          if_pos hfull]
      exact ⟨wi, ri, hwi, hri, by rw [hstep], by rw [hstep]⟩
    · have hstep : ringStep (off : Int)
          (ringOf b off n wi ri, ringDist n wi ri) RingOp.write =
          (ringOf b off n ((wi + 1) % n) ri,
           ringDist n ((wi + 1) % n) ri) := by
        unfold ringStep
        dsimp only
        rw [desc_next_wptr_spec b off n wi ri hoff hn hwi hri,
          if_neg hfull,
          ringDist_write_succ n wi ri hn hwi hri hfull]
      exact ⟨(wi + 1) % n, ri, Nat.mod_lt _ hn, hri, by rw [hstep],
        by rw [hstep]⟩
  | read =>
    have hpos : 0 < ringDist n wi ri := hop rfl
    have hstep : ringStep (off : Int)
        (ringOf b off n wi ri, ringDist n wi ri) RingOp.read =
        (ringOf b off n wi ((ri + 1) % n),
         ringDist n wi ((ri + 1) % n)) := by
      unfold ringStep
      dsimp only
      rw [cdr_next_rptr_spec b off n wi ri hoff hn hwi hri,
        ringDist_read_pred n wi ri hn hwi hri hpos]
    exact ⟨wi, (ri + 1) % n, hwi, Nat.mod_lt _ hn, by rw [hstep],
      by rw [hstep]⟩
  | rollback =>
    by_cases heq : wi = ri
    · have hwr : (ringOf b off n wi ri).write =
          (ringOf b off n wi ri).read := by
        unfold ringOf
        rw [heq]
      have hdz : ringDist n wi ri = 0 :=
        (ringDist_zero_iff n wi ri hn hwi hri).mp heq
      have hstep : ringStep (off : Int)
          (ringOf b off n wi ri, ringDist n wi ri) RingOp.rollback =
          (ringOf b off n wi ri, ringDist n wi ri) := by
        unfold ringStep
        dsimp only
        rw [desc_rollback_wptr_spec b off n wi ri hoff hn hwi hri,
          if_pos heq, if_pos hwr]
      exact ⟨wi, ri, hwi, hri, by rw [hstep], by rw [hstep]⟩
    · have hwr : ¬ (ringOf b off n wi ri).write =
          (ringOf b off n wi ri).read :=
        fun he => heq (slotPtr_inj b off hoff he)
      have hstep : ringStep (off : Int)
          (ringOf b off n wi ri, ringDist n wi ri) RingOp.rollback =
          (ringOf b off n ((wi + (n - 1)) % n) ri,
           ringDist n ((wi + (n - 1)) % n) ri) := by
        unfold ringStep
        dsimp only
        rw [desc_rollback_wptr_spec b off n wi ri hoff hn hwi hri,
          if_neg heq, if_neg hwr,
          ringDist_rollback_pred n wi ri hn hwi hri heq]
      exact ⟨(wi + (n - 1)) % n, ri, Nat.mod_lt _ hn, hri,
        by rw [hstep], by rw [hstep]⟩

/-- every valid trace preserves the abstraction invariant. -/
theorem runOps_preserves (b : Int) (off n : Nat) (hoff : 0 < off)
    (hn : 0 < n) :
    ∀ ops s, AbsOk b off n s →
      validFrom (off : Int) s ops = true →
      AbsOk b off n (runOps (off : Int) s ops) := by
  intro ops
  induction ops with
  | nil => intro s hs _; exact hs
  | cons op rest ih =>
    intro s hs hv
    obtain ⟨r, c⟩ := s
    unfold validFrom at hv
    rw [Bool.and_eq_true] at hv
    have hop : op = RingOp.read → 0 < (r, c).2 := by
      intro hopr
      subst hopr
      simpa using hv.1
    have hstep := ringStep_preserves b off n hoff hn (r, c) hs op hop
    exact ih _ hstep hv.2

/-- C1: for every sequence of next_write_slot (safexcel_cdr_next_wptr /
safexcel_rdr_next_wptr, both instances of desc_next_wptr), rollback_write
and next_read_slot operations obeying the single-writer/single-reader
discipline, starting from the freshly initialized ring, the number of
reserved-but-unread slots (the ghost count, shown equal to the cursor
distance) never exceeds capacity - 1, and next_write_slot returns the
"ring full" error exactly when that bound would be violated; the ring is
empty exactly when write cursor = read cursor; and on success
next_write_slot returns the pre-advance write cursor and advances it one
stride, wrapping at the end. -/
theorem ring_capacity_invariant (b : Int) (off n : Nat) (hoff : 0 < off)
    (hn : 0 < n) (ops : List RingOp)
    (hv : validFrom (off : Int) (ring_init b off n, 0) ops = true) :
    ∃ wi ri, wi < n ∧ ri < n ∧
      runOps (off : Int) (ring_init b off n, 0) ops =
        (ringOf b off n wi ri, ringDist n wi ri) ∧
      ringDist n wi ri ≤ n - 1 ∧
      ((safexcel_cdr_next_wptr (off : Int) (ringOf b off n wi ri)).1 =
          none ↔ ringDist n wi ri = n - 1) ∧
      ((safexcel_rdr_next_wptr (off : Int) (ringOf b off n wi ri)).1 =
          none ↔ ringDist n wi ri = n - 1) ∧
      (ringDist n wi ri < n - 1 →
        safexcel_cdr_next_wptr (off : Int) (ringOf b off n wi ri) =
          (some (slotPtr b off wi), ringOf b off n ((wi + 1) % n) ri)) ∧
      ((ringOf b off n wi ri).write = (ringOf b off n wi ri).read ↔
        ringDist n wi ri = 0) := by
  have hd0 : ringDist n 0 0 = 0 := by
    unfold ringDist
    simp [Nat.mod_self]
  have hinit : AbsOk b off n (ring_init b off n, 0) :=
    ⟨0, 0, hn, hn, rfl, hd0.symm⟩
  obtain ⟨wi, ri, hwi, hri, h1, h2⟩ :=
    runOps_preserves b off n hoff hn ops _ hinit hv
  have hfull := ringDist_full_iff n wi ri hn hwi hri
  refine ⟨wi, ri, hwi, hri, ?_, ?_, ?_, ?_, ?_, ?_⟩
  · have hpair : runOps (off : Int) (ring_init b off n, 0) ops =
        ((runOps (off : Int) (ring_init b off n, 0) ops).1,
         (runOps (off : Int) (ring_init b off n, 0) ops).2) := rfl
    rw [hpair, h1, h2]
  · have := ringDist_lt n wi ri hn
    omega
  · unfold safexcel_cdr_next_wptr
    rw [desc_next_wptr_spec b off n wi ri hoff hn hwi hri]
    by_cases hf : (wi + 1) % n = ri
    · rw [if_pos hf]
      exact iff_of_true rfl (hfull.mp hf)
    · rw [if_neg hf]
      exact iff_of_false (by simp) (fun h => hf (hfull.mpr h))
  · unfold safexcel_rdr_next_wptr
    rw [desc_next_wptr_spec b off n wi ri hoff hn hwi hri]
    by_cases hf : (wi + 1) % n = ri
    · rw [if_pos hf]
      exact iff_of_true rfl (hfull.mp hf)
    · rw [if_neg hf]
      exact iff_of_false (by simp) (fun h => hf (hfull.mpr h))
  · intro hlt
    have hf : (wi + 1) % n ≠ ri := fun h => by
      have := hfull.mp h
      omega
    unfold safexcel_cdr_next_wptr
    rw [desc_next_wptr_spec b off n wi ri hoff hn hwi hri, if_neg hf]
  · constructor
    · intro h
      exact (ringDist_zero_iff n wi ri hn hwi hri).mp
        (slotPtr_inj b off hoff h)
    · intro h
      have hwr : wi = ri := (ringDist_zero_iff n wi ri hn hwi hri).mpr h
      unfold ringOf
      rw [hwr]

/-- C1 witness: a valid trace (two reservations, one read, one
reservation, one rollback) on a 3-slot ring with stride 4. -/
theorem ring_capacity_invariant_witness :
    ∃ wi ri, wi < 3 ∧ ri < 3 ∧
      runOps ((4 : Nat) : Int) (ring_init 0 4 3, 0)
          [RingOp.write, RingOp.write, RingOp.read, RingOp.write,
           RingOp.rollback] =
        (ringOf 0 4 3 wi ri, ringDist 3 wi ri) ∧
      ringDist 3 wi ri ≤ 3 - 1 ∧
      ((safexcel_cdr_next_wptr ((4 : Nat) : Int)
          (ringOf 0 4 3 wi ri)).1 = none ↔ ringDist 3 wi ri = 3 - 1) ∧
      ((safexcel_rdr_next_wptr ((4 : Nat) : Int)
          (ringOf 0 4 3 wi ri)).1 = none ↔ ringDist 3 wi ri = 3 - 1) ∧
      (ringDist 3 wi ri < 3 - 1 →
        safexcel_cdr_next_wptr ((4 : Nat) : Int) (ringOf 0 4 3 wi ri) =
          (some (slotPtr 0 4 wi), ringOf 0 4 3 ((wi + 1) % 3) ri)) ∧
      ((ringOf 0 4 3 wi ri).write = (ringOf 0 4 3 wi ri).read ↔
        ringDist 3 wi ri = 0) :=
  ring_capacity_invariant 0 4 3 (by decide) (by decide)
    [RingOp.write, RingOp.write, RingOp.read, RingOp.write,
     RingOp.rollback] (by decide)

/-- C7: after `N` consecutive successful next_write_slot reservations on
a well-formed ring (with no intervening reads), `N` rollback_write calls
restore the write cursor (and the whole ring state) exactly, including
across the wrap boundary; and rollback_write is a no-op whenever
write == read. -/
theorem rollback_restores_wptr (b : Int) (off n : Nat) (hoff : 0 < off)
    (hn : 0 < n) (N : Nat) :
    (∀ wi ri r', wi < n → ri < n →
      reserveN (off : Int) N (ringOf b off n wi ri) = some r' →
      rollbackN (off : Int) N r' = ringOf b off n wi ri) ∧
    (∀ r : DescRing, r.write = r.read →
      desc_rollback_wptr (off : Int) r = r) := by
  constructor
  · induction N with
    | zero =>
      intro wi ri r' _ _ hres
      unfold reserveN at hres
      cases hres
      rfl
    | succ k ih =>
      intro wi ri r' hwi hri hres
      unfold reserveN at hres
      rw [desc_next_wptr_spec b off n wi ri hoff hn hwi hri] at hres
      by_cases hf : (wi + 1) % n = ri
      · rw [if_pos hf] at hres
        dsimp only at hres
        cases hres
      · rw [if_neg hf] at hres
        dsimp only at hres
        have hwi' : (wi + 1) % n < n := Nat.mod_lt _ hn
        have hih := ih ((wi + 1) % n) ri r' hwi' hri hres
        unfold rollbackN
        rw [hih, desc_rollback_wptr_spec b off n ((wi + 1) % n) ri hoff
          hn hwi' hri, if_neg hf]
        have harith : ((wi + 1) % n + (n - 1)) % n = wi := by
          have h1 := mod_two_cases (wi + 1) n (by omega)
          rw [mod_two_cases ((wi + 1) % n + (n - 1)) n (by omega)]
          split_ifs at h1 ⊢ <;> omega
        rw [harith]
  · intro r h
    unfold desc_rollback_wptr
    rw [if_pos h]

/-- C7 witness: one reservation crossing the wrap boundary (write at the
last slot of a 3-slot ring) is undone exactly by one rollback; and
rollback on an empty ring is a no-op. -/
theorem rollback_restores_wptr_witness :
    rollbackN ((4 : Nat) : Int) 1 (ringOf 0 4 3 0 1) = ringOf 0 4 3 2 1 :=
  (rollback_restores_wptr 0 4 3 (by decide) (by decide) 1).1 2 1
    (ringOf 0 4 3 0 1) (by decide) (by decide) (by decide)

/-- shifting the start slot of a wrapped walk by one position. -/
theorem idx_shift (n m j : Nat) :
    ((m + 1) % n + j) % n = (m + (j + 1)) % n := by
  rw [Nat.mod_add_mod]
  congr 1
  omega

/-- the pointer advance of the scan loop visits the next slot, wrapping
at the arena end. -/
theorem scan_step_addr (b : Int) (off n m : Nat) (hoff : 0 < off)
    (hn : 0 < n) (hm : m < n) :
    (if slotPtr b off m = slotPtr b off (n - 1) then b
     else slotPtr b off m + (off : Int)) = slotPtr b off ((m + 1) % n) := by
  by_cases he : m = n - 1
  · subst he
    rw [if_pos rfl, show (n - 1 + 1) % n = 0 by
        rw [show n - 1 + 1 = n by omega, Nat.mod_self], slotPtr_zero]
  · rw [if_neg (fun h => he (slotPtr_inj b off hoff h)),
      Nat.mod_eq_of_lt (show m + 1 < n by omega), slotPtr_succ]

/-- characterization of the fueled scan walk: starting at slot `m`, with
some slot inside the fuel horizon whose ownership word is not the magic
value, the walk returns true exactly when some slot of the magic-prefix
run starting at `m` has its last-segment flag set. -/
theorem scan_go_spec (b : Int) (off n : Nat) (hoff : 0 < off)
    (hn : 0 < n) (own : Int → Nat) (lastSeg : Int → Bool) :
    ∀ fuel m, m < n →
      (∃ j, j < fuel ∧
        own (slotPtr b off ((m + j) % n)) ≠ EIP197_OWNERSHIP_MAGIC) →
      (scan_go (off : Int) b (slotPtr b off (n - 1)) own lastSeg fuel
          (slotPtr b off m) = true ↔
        ∃ k, (∀ j, j ≤ k →
            own (slotPtr b off ((m + j) % n)) = EIP197_OWNERSHIP_MAGIC) ∧
          lastSeg (slotPtr b off ((m + k) % n)) = true) := by
  intro fuel
  induction fuel with
  | zero =>
    intro m _ hex
    obtain ⟨j, hj, _⟩ := hex
    omega
  | succ f ih =>
    intro m hm hex
    have hmm : (m + 0) % n = m := by
      rw [Nat.add_zero, Nat.mod_eq_of_lt hm]
    unfold scan_go
    by_cases hown : own (slotPtr b off m) = EIP197_OWNERSHIP_MAGIC
    · rw [if_pos hown]
      by_cases hlast : lastSeg (slotPtr b off m) = true
      · rw [if_pos hlast]
        refine iff_of_true rfl ⟨0, ?_, ?_⟩
        · intro j hj
          have hj0 : j = 0 := by omega
          subst hj0
          rw [hmm]
          exact hown
        · rw [hmm]
          exact hlast
      · rw [if_neg hlast, scan_step_addr b off n m hoff hn hm]
        have hm1 : (m + 1) % n < n := Nat.mod_lt _ hn
        have hex' : ∃ j, j < f ∧
            own (slotPtr b off (((m + 1) % n + j) % n)) ≠
              EIP197_OWNERSHIP_MAGIC := by
          obtain ⟨j, hj, hnm⟩ := hex
          cases j with
          | zero =>
            rw [hmm] at hnm
            exact absurd hown hnm
          | succ j' =>
            refine ⟨j', by omega, ?_⟩
            rw [idx_shift n m j']
            exact hnm
        rw [ih ((m + 1) % n) hm1 hex']
        constructor
        · rintro ⟨k, hall, hl⟩
          refine ⟨k + 1, ?_, ?_⟩
          · intro j hj
            cases j with
            | zero =>
              rw [hmm]
              exact hown
            | succ j' =>
              rw [← idx_shift n m j']
              exact hall j' (by omega)
          · rw [← idx_shift n m k]
            exact hl
        · rintro ⟨k, hall, hl⟩
          cases k with
          | zero =>
            rw [hmm] at hl
            exact absurd hl hlast
          | succ k' =>
            refine ⟨k', ?_, ?_⟩
            · intro j hj
              rw [idx_shift n m j]
              exact hall (j + 1) (by omega)
            · rw [idx_shift n m k']
              exact hl
    · rw [if_neg hown]
      refine iff_of_false (by simp) ?_
      rintro ⟨k, hall, -⟩
      have h0 := hall 0 (Nat.zero_le k)
      rw [hmm] at h0
      exact hown h0

/-- C8: safexcel_rdr_scan_next (run with fuel = ring_entries, which is
enough because some slot's ownership word is below the magic value)
leaves the ring unchanged by construction (it is a pure function of the
ring) and returns true if and only if, walking forward from the read
cursor across the maximal run of consecutive slots whose ownership word
equals the magic value -- wrapping at the ring end -- some slot in that
run has its last-segment flag set. -/
theorem rdr_scan_next_full_packet (b : Int) (off n wi ri : Nat)
    (hoff : 0 < off) (hn : 0 < n) (_hwi : wi < n) (hri : ri < n)
    (own : Int → Nat) (lastSeg : Int → Bool)
    (hgap : ∃ j, j < n ∧
      own (slotPtr b off ((ri + j) % n)) ≠ EIP197_OWNERSHIP_MAGIC) :
    (safexcel_rdr_scan_next (off : Int) (ringOf b off n wi ri) own lastSeg
        n = true ↔
      ∃ k, (∀ j, j ≤ k →
          own (slotPtr b off ((ri + j) % n)) = EIP197_OWNERSHIP_MAGIC) ∧
        lastSeg (slotPtr b off ((ri + k) % n)) = true) := by
  unfold safexcel_rdr_scan_next ringOf
  dsimp only
  exact scan_go_spec b off n hoff hn own lastSeg n ri hri hgap

/-- C8 witness: a 4-slot result ring (stride 4, base 0) with the first
two slots ownership-confirmed, the second being a last segment: the scan
finds a full packet. -/
theorem rdr_scan_next_full_packet_witness :
    (safexcel_rdr_scan_next ((4 : Nat) : Int) (ringOf 0 4 4 0 0)
        (fun a => if a = 0 ∨ a = 4 then EIP197_OWNERSHIP_MAGIC else 0)
        (fun a => a = 4) 4 = true ↔
      ∃ k, (∀ j, j ≤ k →
          (fun a => if a = 0 ∨ a = 4 then EIP197_OWNERSHIP_MAGIC else 0)
            (slotPtr 0 4 ((0 + j) % 4)) = EIP197_OWNERSHIP_MAGIC) ∧
        (fun a : Int => decide (a = 4))
          (slotPtr 0 4 ((0 + k) % 4)) = true) :=
  rdr_scan_next_full_packet 0 4 4 0 0 (by decide) (by decide) (by decide)
    (by decide)
    (fun a => if a = 0 ∨ a = 4 then EIP197_OWNERSHIP_MAGIC else 0)
    (fun a => a = 4) ⟨2, by decide, by decide⟩

end Safexcel
